import Mathlib

/-!
Verification of the cssm ingestion/merge pipeline.

Shallow embedding of:
  * `src/data/data.py`: `read_jsonl`, `load_metadata`, `build_merged_record`,
    `merge_reviews_with_metadata`;
  * `src/data-ingestion/data_ingestion.py`: `DataIngestion.load_jsonl`,
    `DataIngestion.transform`, `DataIngestion.ingest`.

File contents are modelled as lists of already-classified lines (blank /
malformed / valid), Python dicts of known schema as structures with `Option`
fields (`None` or absent key both map to `none`), the metadata dict as a
function `String → Option Meta` updated last-write-wins, floats used by the
backoff logic as rationals (doubling and `min` are exact in both), and
exceptions as `Except` results.  Python truthiness of a string option
(`None` and `""` falsy) is `pyTruthy`.
-/

/-- One line of a JSONL source, classified the way `json.loads` would after
`str.strip`: whitespace-only, malformed JSON (with the parse error message),
or a successfully parsed value. -/
inductive RawLine (α : Type) where
  | blank : RawLine α
  | malformed (err : String) : RawLine α
  | valid (a : α) : RawLine α
deriving DecidableEq, Repr

/-- A warning printed by `read_jsonl` for a malformed line: 1-based line
number, source file name, parse error. -/
structure ParseWarning where
  line_num : Nat
  source : String
  err : String
deriving DecidableEq, Repr

/-- `read_jsonl` from src/data/data.py: yields parsed objects, skipping blank
lines silently and malformed lines with a warning carrying the 1-based line
number (`enumerate(fp, start=1)`) and the file name.  `n` is the number of
the next line. -/
def read_jsonl (source : String) (n : Nat) :
    List (RawLine α) → List α × List ParseWarning
  | [] => ([], [])
  | RawLine.blank :: rest => read_jsonl source (n + 1) rest
  | RawLine.malformed e :: rest =>
    let r := read_jsonl source (n + 1) rest
    (r.1, ⟨n, source, e⟩ :: r.2)
  | RawLine.valid a :: rest =>
    let r := read_jsonl source (n + 1) rest
    (a :: r.1, r.2)

/-- `DataIngestion.load_jsonl` from src/data-ingestion/data_ingestion.py:
`[json.loads(line) for line in f]`.  Each line is parsed strictly; a
malformed line raises `json.JSONDecodeError`, and a blank line also raises
(`json.loads` on whitespace fails with "Expecting value").  The first bad
line aborts the whole read. -/
def load_jsonl : List (RawLine α) → Except String (List α)
  | [] => Except.ok []
  | RawLine.blank :: _ => Except.error "Expecting value"
  | RawLine.malformed e :: _ => Except.error e
  | RawLine.valid a :: rest =>
    match load_jsonl rest with
    | Except.ok as => Except.ok (a :: as)
    | Except.error e => Except.error e

/-- The values a `RawLine` list yields when every malformed/blank line is
skipped: used to state what `read_jsonl` produces. -/
def validValues : List (RawLine α) → List α
  | [] => []
  | RawLine.valid a :: rest => a :: validValues rest
  | _ :: rest => validValues rest

/-- The warnings `read_jsonl` should emit: one per malformed line, with its
1-based position (counting all lines, blank included). -/
def malformedWarnings (source : String) (n : Nat) :
    List (RawLine α) → List ParseWarning
  | [] => []
  | RawLine.malformed e :: rest => ⟨n, source, e⟩ :: malformedWarnings source (n + 1) rest
  | _ :: rest => malformedWarnings source (n + 1) rest

/-- Python truthiness of an optional string: `None` and `""` are falsy. -/
def pyTruthy : Option String → Bool
  | none => false
  | some s => !s.isEmpty

/-- Python `a or b` on optional strings: `b` when `a` is falsy. -/
def pyOr (a b : Option String) : Option String :=
  if pyTruthy a then a else b

/-- The flattenable `description` field of a metadata record: a JSON array
(modelled with elements already string-coerced), a scalar string, or an
explicit JSON `null`; `none` at the `Meta` level means the key is absent. -/
inductive DescField where
  | arr (xs : List String)
  | scalar (s : String)
  | null
deriving DecidableEq, Repr

/-- One metadata record (the fields src/data/data.py reads). -/
structure Meta where
  parent_asin : Option String
  asin : Option String
  title : Option String
  description : Option DescField
  average_rating : Option Int
  rating_number : Option Int
  main_category : Option String
  store : Option String
  price : Option Int
deriving DecidableEq, Repr

/-- One review record (the fields src/data/data.py reads). -/
structure Review where
  asin : Option String
  user_id : Option String
  text : Option String
  title : Option String
  rating : Option Int
  verified_purchase : Option Bool
  helpful_vote : Option Int
  timestamp : Option Int
deriving DecidableEq, Repr

/-- The identifier `load_metadata` keys a record by:
`meta.get("parent_asin") or meta.get("asin")`, then the record is dropped if
the result is falsy (`if not asin: continue`). -/
def metaKey (m : Meta) : Option String :=
  let k := pyOr m.parent_asin m.asin
  if pyTruthy k then k else none

/-- Python dict assignment `d[k] = m` on the function model of a dict. -/
def dictInsert (d : String → Option Meta) (k : String) (m : Meta) :
    String → Option Meta :=
  fun q => if q = k then some m else d q

/-- `load_metadata` from src/data/data.py, over the already-parsed record
stream (the `read_jsonl` layer is modelled separately): fold the records
left-to-right into a dict keyed by `metaKey`, skipping keyless records;
later records overwrite earlier ones. -/
def load_metadata (metas : List Meta) : String → Option Meta :=
  metas.foldl
    (fun d m =>
      match metaKey m with
      | none => d
      | some k => dictInsert d k m)
    (fun _ => none)

/-- `" ".join(str(x) for x in d)` / `str(d or "")` flattening of the
`description` field, with `meta.get("description", [])` giving `[]` when the
key is absent. -/
def flattenDescription : Option DescField → String
  | none => ""
  | some (DescField.arr xs) => String.intercalate " " xs
  | some (DescField.scalar s) => s
  | some DescField.null => ""

/-- The merged schema produced by `build_merged_record`. -/
structure MergedRecord where
  product_id : Option String
  product_name : String
  product_description : String
  user_id : String
  text : String
  title : String
  rating : Int
  avg_rating : Int
  rating_count : Int
  category : String
  store : String
  price : Option Int
  verified_purchase : Bool
  helpful_vote : Int
  timestamp : Int
deriving DecidableEq, Repr

/-- `build_merged_record` from src/data/data.py. -/
def build_merged_record (review : Review) (meta : Meta) : MergedRecord where
  product_id := pyOr (pyOr review.asin meta.parent_asin) meta.asin
  product_name := meta.title.getD ""
  product_description := flattenDescription meta.description
  user_id := review.user_id.getD ""
  text := review.text.getD ""
  title := review.title.getD ""
  rating := review.rating.getD 0
  avg_rating := meta.average_rating.getD 0
  rating_count := meta.rating_number.getD 0
  category := meta.main_category.getD ""
  store := meta.store.getD ""
  price := meta.price
  verified_purchase := review.verified_purchase.getD false
  helpful_vote := review.helpful_vote.getD 0
  timestamp := review.timestamp.getD 0

/-- Whether `merge_reviews_with_metadata` can join a review against the
metadata index: `review.get("asin")` truthy and present in the index. -/
def joinable (metaIx : String → Option Meta) (r : Review) : Bool :=
  match r.asin with
  | none => false
  | some a => !a.isEmpty && (metaIx a).isSome

/-- The observable state of one run of `merge_reviews_with_metadata`:
the accumulated `merged_records`, the two counters, and how many reviews
were taken from the reader (consumed) before the loop stopped. -/
structure MergeState where
  merged : List MergedRecord
  processed : Nat
  skipped : Nat
  consumed : Nat
deriving DecidableEq, Repr

/-- `sample_limit is not None and len(merged_records) >= sample_limit`. -/
def limitReached (limit : Option Int) (n : Nat) : Bool :=
  match limit with
  | none => false
  | some L => decide ((n : Int) ≥ L)

/-- The review loop of `merge_reviews_with_metadata` (src/data/data.py):
skip reviews with a falsy `asin`, skip reviews whose `asin` misses the
index, otherwise build the merged record, append it, and break once the
sample limit is reached. -/
def mergeGo (metaIx : String → Option Meta) (limit : Option Int)
    (merged : List MergedRecord) (processed skipped consumed : Nat) :
    List Review → MergeState
  | [] => ⟨merged, processed, skipped, consumed⟩
  | r :: rs =>
    match r.asin with
    | none => mergeGo metaIx limit merged processed (skipped + 1) (consumed + 1) rs
    | some a =>
      if a.isEmpty then
        mergeGo metaIx limit merged processed (skipped + 1) (consumed + 1) rs
      else
        match metaIx a with
        | none => mergeGo metaIx limit merged processed (skipped + 1) (consumed + 1) rs
        | some m =>
          if limitReached limit (merged ++ [build_merged_record r m]).length then
            ⟨merged ++ [build_merged_record r m], processed + 1, skipped, consumed + 1⟩
          else
            mergeGo metaIx limit (merged ++ [build_merged_record r m])
              (processed + 1) skipped (consumed + 1) rs

/-- `merge_reviews_with_metadata` without an output sink (`output_jsonl`
`None`): load the metadata index, then run the review loop from empty
state. -/
def merge_reviews_with_metadata (metas : List Meta) (limit : Option Int)
    (reviews : List Review) : MergeState :=
  mergeGo (load_metadata metas) limit [] 0 0 0 reviews

/-- An observable action on the JSONL output sink. -/
inductive SinkEvent where
  | opened
  | wrote (r : MergedRecord)
  | closed
deriving DecidableEq, Repr

/-- Result of a sinked run: the merge outcome (`Except.error` when an
exception escaped the loop) and the ordered sink events. -/
structure SinkRun where
  result : Except Unit MergeState
  events : List SinkEvent
deriving Repr

/-- The review loop of `merge_reviews_with_metadata` with a JSONL sink:
each joinable review is serialized and written before being appended; a
failing write (`writeFails` at the current write index) raises, which
escapes the loop as `Except.error`. -/
def mergeSinkGo (metaIx : String → Option Meta) (limit : Option Int)
    (writeFails : Nat → Bool) (merged : List MergedRecord)
    (processed skipped consumed written : Nat) :
    List Review → Except Unit MergeState × List SinkEvent
  | [] => (Except.ok ⟨merged, processed, skipped, consumed⟩, [])
  | r :: rs =>
    match r.asin with
    | none =>
      mergeSinkGo metaIx limit writeFails merged processed (skipped + 1)
        (consumed + 1) written rs
    | some a =>
      if a.isEmpty then
        mergeSinkGo metaIx limit writeFails merged processed (skipped + 1)
          (consumed + 1) written rs
      else
        match metaIx a with
        | none =>
          mergeSinkGo metaIx limit writeFails merged processed (skipped + 1)
            (consumed + 1) written rs
        | some m =>
          if writeFails written then (Except.error (), [])
          else if limitReached limit (merged ++ [build_merged_record r m]).length then
            (Except.ok ⟨merged ++ [build_merged_record r m], processed + 1,
                skipped, consumed + 1⟩,
              [SinkEvent.wrote (build_merged_record r m)])
          else
            ((mergeSinkGo metaIx limit writeFails
                (merged ++ [build_merged_record r m])
                (processed + 1) skipped (consumed + 1) (written + 1) rs).1,
              SinkEvent.wrote (build_merged_record r m) ::
                (mergeSinkGo metaIx limit writeFails
                  (merged ++ [build_merged_record r m])
                  (processed + 1) skipped (consumed + 1) (written + 1) rs).2)

/-- `merge_reviews_with_metadata` with `output_jsonl` set.  The `try` body
opens the sink and runs the loop; the `finally` closes the sink whenever it
was opened, before any exception from the body propagates.  When the open
itself raises, `jsonl_fp` is still `None` and the `finally` closes
nothing. -/
def merge_with_sink (metas : List Meta) (limit : Option Int)
    (openFails : Bool) (writeFails : Nat → Bool)
    (reviews : List Review) : SinkRun :=
  if openFails then ⟨Except.error (), []⟩
  else
    let r := mergeSinkGo (load_metadata metas) limit writeFails [] 0 0 0 0 reviews
    ⟨r.1, SinkEvent.opened :: r.2 ++ [SinkEvent.closed]⟩

/-- Python strings for the transform stage, as character lists so that
`str.strip` is explicit. -/
abbrev PyStr := List Char

/-- Remove leading whitespace (one side of `str.strip`). -/
def stripLeft (s : PyStr) : PyStr :=
  s.dropWhile fun c => c.isWhitespace

/-- Python `str.strip()`: drop trailing whitespace (via the reverse), then
leading whitespace. -/
def pyStrip (s : PyStr) : PyStr :=
  stripLeft (stripLeft s.reverse).reverse

/-- One row of the merged JSONL consumed by `DataIngestion.transform`
(the fields the transform reads; `none` for a missing or null key). -/
structure Row where
  title : Option PyStr
  text : Option PyStr
  product_name : Option PyStr
  product_description : Option PyStr
  rating : Option Int
  category : Option PyStr
  user_id : Option PyStr
  product_id : Option PyStr
  avg_rating : Option Int
  rating_count : Option Int
  verified_purchase : Option Bool
  helpful_vote : Option Int
  store : Option PyStr
  price : Option Int
  timestamp : Option Int
deriving DecidableEq, Repr

/-- Derivation of `page_content` in `DataIngestion.transform`:
`title = (row.get("title") or "").strip()`,
`review_text = (row.get("text") or "").strip()`,
`f"{title}\n\ntext".strip() if title else review_text`. -/
def pageContent (row : Row) : PyStr :=
  let title := pyStrip (row.title.getD [])
  let review_text := pyStrip (row.text.getD [])
  if title = [] then review_text
  else pyStrip (title ++ ('\n' :: '\n' :: []) ++ review_text)

/-- The `product_entry` dict built for each non-empty row. -/
structure ProductEntry where
  page_content : PyStr
  product_name : Option PyStr
  product_description : Option PyStr
  product_rating : Option Int
  product_category : Option PyStr
  user_id : Option PyStr
  product_id : Option PyStr
  avg_rating : Option Int
  rating_count : Option Int
  verified_purchase : Option Bool
  helpful_vote : Option Int
  store : Option PyStr
  price : Option Int
  timestamp : Option Int
deriving DecidableEq, Repr

/-- The `product_entry` dict `transform` builds from one row. -/
def entryOf (row : Row) : ProductEntry :=
  ⟨pageContent row, row.product_name, row.product_description, row.rating,
    row.category, row.user_id, row.product_id, row.avg_rating,
    row.rating_count, row.verified_purchase, row.helpful_vote,
    row.store, row.price, row.timestamp⟩

/-- First loop of `transform`: build `product_list` and count
`empty_skipped`; a row whose derived `page_content` is empty is skipped. -/
def buildEntries : List Row → List ProductEntry × Nat
  | [] => ([], 0)
  | row :: rest =>
    if pageContent row = [] then
      ((buildEntries rest).1, (buildEntries rest).2 + 1)
    else
      (entryOf row :: (buildEntries rest).1, (buildEntries rest).2)

/-- A value in a document's metadata sidecar. -/
inductive MetaVal where
  | s (v : PyStr)
  | i (v : Int)
deriving DecidableEq, Repr

/-- A langchain `Document` as transform builds it. -/
structure Document where
  page_content : PyStr
  metadata : List (String × MetaVal)
deriving DecidableEq, Repr

/-- One optional metadata pair: present only when the value is not `None`
(`{k: v for k, v in metadata.items() if v is not None}`). -/
def metaPair (k : String) : Option MetaVal → List (String × MetaVal)
  | none => []
  | some v => [(k, v)]

/-- Second loop of `transform`: the five-field metadata sidecar, `None`
values dropped, insertion order preserved. -/
def entryMetadata (e : ProductEntry) : List (String × MetaVal) :=
  metaPair "product_id" (e.product_id.map MetaVal.s) ++
  metaPair "product_name" (e.product_name.map MetaVal.s) ++
  metaPair "product_rating" (e.product_rating.map MetaVal.i) ++
  metaPair "product_category" (e.product_category.map MetaVal.s) ++
  metaPair "user_id" (e.user_id.map MetaVal.s)

/-- Second loop of `transform`, per entry. -/
def docOf (e : ProductEntry) : Document :=
  ⟨e.page_content, entryMetadata e⟩

/-- The `data[:limit]` cap applied when `ingestion.limit` is a positive
int. -/
def effectiveRows (limitCfg : Option Int) (rows : List Row) : List Row :=
  match limitCfg with
  | some l => if 0 < l then rows.take l.toNat else rows
  | none => rows

/-- `DataIngestion.transform` (src/data-ingestion/data_ingestion.py),
returning the documents and `empty_skipped`.  The optional shuffle is a
permutation of the input applied before this function; every theorem below
quantifies over all input orders, so it covers any shuffle outcome. -/
def transform (limitCfg : Option Int) (rows : List Row) :
    List Document × Nat :=
  let r := buildEntries (effectiveRows limitCfg rows)
  (r.1.map docOf, r.2)

/-- The slices `documents[start:start+B]` produced by
`range(0, total, batch_size)` in `DataIngestion.ingest`, written with the
list length as structural fuel (one unit per loop iteration; the fuel is
never exhausted when `B ≥ 1`).  Python raises on step 0; `B = 0` is outside
the modelled domain and every theorem assumes `0 < B`. -/
def chunksGo (B : Nat) : Nat → List α → List (List α)
  | _, [] => []
  | 0, _ :: _ => []
  | fuel + 1, x :: xs => (x :: xs).take B :: chunksGo B fuel ((x :: xs).drop B)

/-- The batches `DataIngestion.ingest` iterates over. -/
def chunks (B : Nat) (docs : List α) : List (List α) :=
  chunksGo B docs.length docs

/-- What one batch's retry loop did: number of `add_documents` calls,
sleep durations in order, and `some ids` on success / `none` when the
retry budget was exhausted and the exception propagated. -/
structure BatchOutcome where
  attempts : Nat
  sleeps : List ℚ
  ids : Option (List String)
deriving DecidableEq, Repr

/-- One batch's `while True` retry loop.  `write a` is the outcome of the
call made when the code's `attempt` variable equals `a` (`none` = raised);
`remaining` is the number of retries still allowed, i.e.
`max_retries - attempt`, so `remaining = 0` is exactly the code's
`attempt + 1 > max_retries` abort test.  On a retried failure the loop
sleeps for `backoff` and then doubles it, capping at 30. -/
def runBatchGo (write : Nat → Option (List String)) :
    Nat → ℚ → List ℚ → Nat → BatchOutcome
  | attempt, _, sleeps, 0 =>
    match write attempt with
    | some ids => ⟨attempt + 1, sleeps, some ids⟩
    | none => ⟨attempt + 1, sleeps, none⟩
  | attempt, backoff, sleeps, remaining + 1 =>
    match write attempt with
    | some ids => ⟨attempt + 1, sleeps, some ids⟩
    | none =>
      runBatchGo write (attempt + 1) (min (backoff * 2) 30)
        (sleeps ++ [backoff]) remaining

/-- The retry loop for one batch, from attempt 0 with the configured
initial backoff. -/
def runBatch (write : Nat → Option (List String)) (maxRetries : Nat)
    (b0 : ℚ) : BatchOutcome :=
  runBatchGo write 0 b0 [] maxRetries

/-- Whether a batch's write capability succeeds within the retry budget
(some attempt among `0..maxRetries` returns ids). -/
def batchSucceeds (write : Nat → Option (List String)) (maxRetries : Nat) :
    Bool :=
  (List.range (maxRetries + 1)).any fun a => (write a).isSome

/-- The batch loop of `DataIngestion.ingest`: run each batch's retry loop
in order; on success extend `inserted_ids` with the returned ids and move
on, on exhausted retries re-raise, losing the accumulated ids
(`Except.error ()`).  `write i a` is the result of attempt `a` on batch
`i`; the trace records the outcome of every batch that was attempted. -/
def ingestLoop (write : Nat → Nat → Option (List String))
    (maxRetries : Nat) (b0 : ℚ) :
    List (List α) → Nat → List BatchOutcome × Except Unit (List String)
  | [], _ => ([], Except.ok [])
  | _b :: bs, i =>
    let o := runBatch (write i) maxRetries b0
    match o.ids with
    | some ids =>
      let r := ingestLoop write maxRetries b0 bs (i + 1)
      (o :: r.1, r.2.map fun rest => ids ++ rest)
    | none => ([o], Except.error ())

/-- `DataIngestion.ingest`: partition into batches of `B` and run the
batch loop. -/
def ingest (write : Nat → Nat → Option (List String)) (docs : List α)
    (B maxRetries : Nat) (b0 : ℚ) :
    List BatchOutcome × Except Unit (List String) :=
  ingestLoop write maxRetries b0 (chunks B docs) 0

/-- The backoff value before the `k`-th doubling: `b0`, then
`min (previous * 2) 30` — the sleep durations a batch's retry loop
actually uses, in order. -/
def backoffChain (b0 : ℚ) : Nat → ℚ
  | 0 => b0
  | k + 1 => min (backoffChain b0 k * 2) 30

/-! ### Helper lemmas about the merge loop -/

/-- The counters of `mergeGo` are pure accumulators: running with
accumulators `p`, `s`, `c` just shifts the result of running with zeros. -/
theorem mergeGo_shift (metaIx : String → Option Meta) (limit : Option Int)
    (rs : List Review) :
    ∀ (merged : List MergedRecord) (p s c : Nat),
      mergeGo metaIx limit merged p s c rs =
        ⟨(mergeGo metaIx limit merged 0 0 0 rs).merged,
         p + (mergeGo metaIx limit merged 0 0 0 rs).processed,
         s + (mergeGo metaIx limit merged 0 0 0 rs).skipped,
         c + (mergeGo metaIx limit merged 0 0 0 rs).consumed⟩ := by
  induction rs with
  | nil => intro merged p s c; simp [mergeGo]
  | cons r rs ih =>
    intro merged p s c
    cases ha : r.asin with
    | none =>
      simp only [mergeGo, ha]
      rw [ih merged p (s + 1) (c + 1), ih merged 0 1 1]
      simp only [MergeState.mk.injEq, true_and, and_true, and_assoc]
      omega
    | some a =>
      cases he : a.isEmpty with
      | true =>
        simp only [mergeGo, ha, he, if_true]
        rw [ih merged p (s + 1) (c + 1), ih merged 0 1 1]
        simp only [MergeState.mk.injEq, true_and, and_true, and_assoc]
        omega
      | false =>
        cases hm : metaIx a with
        | none =>
          simp only [mergeGo, ha, he, Bool.false_eq_true, if_false, hm]
          rw [ih merged p (s + 1) (c + 1), ih merged 0 1 1]
          simp only [MergeState.mk.injEq, true_and, and_true, and_assoc]
          omega
        | some m =>
          cases hl : limitReached limit (merged ++ [build_merged_record r m]).length with
          | true =>
            simp only [mergeGo, ha, he, Bool.false_eq_true, if_false, hm, hl, if_true]
            simp only [MergeState.mk.injEq, true_and, and_true, and_assoc]
            omega
          | false =>
            simp only [mergeGo, ha, he, Bool.false_eq_true, if_false, hm, hl]
            rw [ih (merged ++ [build_merged_record r m]) (p + 1) s (c + 1),
                ih (merged ++ [build_merged_record r m]) 1 0 1]
            simp only [MergeState.mk.injEq, true_and, and_true, and_assoc]
            omega

/-- Loop invariant behind C1: every consumed review is counted exactly once
(processed or skipped), and the merged list grows once per processed
review. -/
theorem mergeGo_counts (metaIx : String → Option Meta) (limit : Option Int)
    (rs : List Review) :
    ∀ (merged : List MergedRecord) (p s c : Nat),
      (mergeGo metaIx limit merged p s c rs).processed +
          (mergeGo metaIx limit merged p s c rs).skipped + c =
        p + s + (mergeGo metaIx limit merged p s c rs).consumed ∧
      (mergeGo metaIx limit merged p s c rs).merged.length + p =
        merged.length + (mergeGo metaIx limit merged p s c rs).processed := by
  induction rs with
  | nil => intro merged p s c; simp [mergeGo]
  | cons r rs ih =>
    intro merged p s c
    cases ha : r.asin with
    | none =>
      simp only [mergeGo, ha]
      have := ih merged p (s + 1) (c + 1)
      omega
    | some a =>
      cases he : a.isEmpty with
      | true =>
        simp only [mergeGo, ha, he, if_true]
        have := ih merged p (s + 1) (c + 1)
        omega
      | false =>
        cases hm : metaIx a with
        | none =>
          simp only [mergeGo, ha, he, Bool.false_eq_true, if_false, hm]
          have := ih merged p (s + 1) (c + 1)
          omega
        | some m =>
          have hlen : (merged ++ [build_merged_record r m]).length =
              merged.length + 1 := by simp
          cases hl : limitReached limit (merged ++ [build_merged_record r m]).length with
          | true =>
            simp only [mergeGo, ha, he, Bool.false_eq_true, if_false, hm, hl, if_true]
            omega
          | false =>
            simp only [mergeGo, ha, he, Bool.false_eq_true, if_false, hm, hl]
            have := ih (merged ++ [build_merged_record r m]) (p + 1) s (c + 1)
            omega

/-- While the accumulated record count is still below the sample limit, the
final count cannot exceed the limit: the loop breaks as soon as the limit
is reached. -/
theorem mergeGo_length_le (metaIx : String → Option Meta) (L : Int)
    (rs : List Review) :
    ∀ (merged : List MergedRecord) (p s c : Nat),
      (merged.length : Int) < L →
      ((mergeGo metaIx (some L) merged p s c rs).merged.length : Int) ≤ L := by
  induction rs with
  | nil => intro merged p s c h; simpa [mergeGo] using le_of_lt h
  | cons r rs ih =>
    intro merged p s c h
    cases ha : r.asin with
    | none => simp only [mergeGo, ha]; exact ih merged p (s + 1) (c + 1) h
    | some a =>
      cases he : a.isEmpty with
      | true => simp only [mergeGo, ha, he, if_true]; exact ih merged p (s + 1) (c + 1) h
      | false =>
        cases hm : metaIx a with
        | none =>
          simp only [mergeGo, ha, he, Bool.false_eq_true, if_false, hm]
          exact ih merged p (s + 1) (c + 1) h
        | some m =>
          have hlen : (merged ++ [build_merged_record r m]).length =
              merged.length + 1 := by simp
          cases hl : limitReached (some L) (merged ++ [build_merged_record r m]).length with
          | true =>
            simp only [mergeGo, ha, he, Bool.false_eq_true, if_false, hm, hl, if_true]
            omega
          | false =>
            simp only [mergeGo, ha, he, Bool.false_eq_true, if_false, hm, hl]
            apply ih
            have : ¬ ((((merged ++ [build_merged_record r m]).length : Nat) : Int) ≥ L) := by
              simpa [limitReached] using hl
            omega

/-- When at least enough joinable reviews remain to reach the sample limit,
the loop stops exactly at the limit, consuming reviews only up to (and
including) the one that reaches it. -/
theorem mergeGo_limit_hit (metaIx : String → Option Meta) (L : Int) (rs : List Review) :
    ∀ merged : List MergedRecord,
      (merged.length : Int) < L →
      L ≤ (merged.length : Int) + (rs.countP (joinable metaIx) : Int) →
      ((mergeGo metaIx (some L) merged 0 0 0 rs).merged.length : Int) = L ∧
      (mergeGo metaIx (some L) merged 0 0 0 rs).consumed ≤ rs.length ∧
      (merged.length : Int) +
          (((rs.take (mergeGo metaIx (some L) merged 0 0 0 rs).consumed).countP
            (joinable metaIx) : Nat) : Int) = L := by
  induction rs with
  | nil =>
    intro merged h1 h2
    exfalso
    simp only [List.countP_nil, Nat.cast_zero, add_zero] at h2
    omega
  | cons r rs ih =>
    intro merged h1 h2
    cases ha : r.asin with
    | none =>
      have hj : joinable metaIx r = false := by simp [joinable, ha]
      have hj' : ¬ joinable metaIx r = true := by simp [hj]
      simp only [mergeGo, ha]
      rw [mergeGo_shift metaIx (some L) rs merged 0 1 1]
      dsimp only
      simp only [List.countP_cons_of_neg _ _ hj'] at h2
      obtain ⟨g1, g2, g3⟩ := ih merged h1 h2
      refine ⟨g1, by simp only [List.length_cons]; omega, ?_⟩
      have : (1 : Nat) + (mergeGo metaIx (some L) merged 0 0 0 rs).consumed =
          (mergeGo metaIx (some L) merged 0 0 0 rs).consumed + 1 := by omega
      rw [this, List.take_succ_cons, List.countP_cons_of_neg _ _ hj']
      exact g3
    | some a =>
      cases he : a.isEmpty with
      | true =>
        have hj : joinable metaIx r = false := by simp [joinable, ha, he]
        have hj' : ¬ joinable metaIx r = true := by simp [hj]
        simp only [mergeGo, ha, he, if_true]
        rw [mergeGo_shift metaIx (some L) rs merged 0 1 1]
        dsimp only
        simp only [List.countP_cons_of_neg _ _ hj'] at h2
        obtain ⟨g1, g2, g3⟩ := ih merged h1 h2
        refine ⟨g1, by simp only [List.length_cons]; omega, ?_⟩
        have : (1 : Nat) + (mergeGo metaIx (some L) merged 0 0 0 rs).consumed =
            (mergeGo metaIx (some L) merged 0 0 0 rs).consumed + 1 := by omega
        rw [this, List.take_succ_cons, List.countP_cons_of_neg _ _ hj']
        exact g3
      | false =>
        cases hm : metaIx a with
        | none =>
          have hj : joinable metaIx r = false := by simp [joinable, ha, he, hm]
          have hj' : ¬ joinable metaIx r = true := by simp [hj]
          simp only [mergeGo, ha, he, Bool.false_eq_true, if_false, hm]
          rw [mergeGo_shift metaIx (some L) rs merged 0 1 1]
          dsimp only
          simp only [List.countP_cons_of_neg _ _ hj'] at h2
          obtain ⟨g1, g2, g3⟩ := ih merged h1 h2
          refine ⟨g1, by simp only [List.length_cons]; omega, ?_⟩
          have : (1 : Nat) + (mergeGo metaIx (some L) merged 0 0 0 rs).consumed =
              (mergeGo metaIx (some L) merged 0 0 0 rs).consumed + 1 := by omega
          rw [this, List.take_succ_cons, List.countP_cons_of_neg _ _ hj']
          exact g3
        | some m =>
          have hj : joinable metaIx r = true := by simp [joinable, ha, he, hm]
          have hlen : (merged ++ [build_merged_record r m]).length =
              merged.length + 1 := by simp
          cases hl : limitReached (some L) (merged ++ [build_merged_record r m]).length with
          | true =>
            have hge : ((merged ++ [build_merged_record r m]).length : Int) ≥ L := by
              simpa [limitReached] using hl
            simp only [mergeGo, ha, he, Bool.false_eq_true, if_false, hm, hl, if_true]
            refine ⟨by omega, by simp, ?_⟩
            have ht : List.take 1 (r :: rs) = [r] := by simp
            rw [ht, List.countP_cons_of_pos _ _ hj, List.countP_nil]
            omega
          | false =>
            have hlt : ¬ (((merged ++ [build_merged_record r m]).length : Int) ≥ L) := by
              simpa [limitReached] using hl
            simp only [mergeGo, ha, he, Bool.false_eq_true, if_false, hm, hl]
            rw [mergeGo_shift metaIx (some L) rs (merged ++ [build_merged_record r m]) 1 0 1]
            dsimp only
            simp only [List.countP_cons_of_pos _ _ hj] at h2
            have h2' : L ≤ ((merged ++ [build_merged_record r m]).length : Int) +
                (rs.countP (joinable metaIx) : Int) := by
              push_cast at h2 ⊢
              omega
            obtain ⟨g1, g2, g3⟩ := ih (merged ++ [build_merged_record r m]) (by omega) h2'
            refine ⟨g1, by simp only [List.length_cons]; omega, ?_⟩
            have : (1 : Nat) + (mergeGo metaIx (some L)
                (merged ++ [build_merged_record r m]) 0 0 0 rs).consumed =
                (mergeGo metaIx (some L)
                  (merged ++ [build_merged_record r m]) 0 0 0 rs).consumed + 1 := by omega
            rw [this, List.take_succ_cons, List.countP_cons_of_pos _ _ hj]
            push_cast at g3 ⊢
            omega

/-- Characterization of the metadata index: looking up `k` returns the last
record of the stream whose key is `k`. -/
theorem load_metadata_lookup (metas : List Meta) (k : String) :
    load_metadata metas k = (metas.filter fun m => metaKey m = some k).getLast? := by
  induction metas using List.reverseRecOn with
  | nil => rfl
  | append_singleton l m ih =>
    unfold load_metadata at ih ⊢
    rw [List.foldl_append, List.filter_append]
    simp only [List.foldl_cons, List.foldl_nil, List.filter_cons, List.filter_nil]
    cases hk : metaKey m with
    | none =>
      have : (decide (metaKey m = some k)) = false := by simp [hk]
      simp [hk, this, ih]
    | some k' =>
      by_cases hkk : k' = k
      · subst hkk
        simp [hk, dictInsert, List.getLast?_concat]
      · have : (decide (metaKey m = some k)) = false := by simp [hk, hkk]
        simp [hk, this, dictInsert, hkk, ih]
        intro h
        exact absurd h.symm hkk

/-- Claim C1: for every pair of review and metadata inputs, after the merge
completes (normally or by sample-limit early stop),
`processed + skipped` equals the number of reviews consumed from the
reader, and the number of merged records returned equals `processed`. -/
theorem claim_C1 (metas : List Meta) (limit : Option Int) (reviews : List Review) :
    (merge_reviews_with_metadata metas limit reviews).processed +
        (merge_reviews_with_metadata metas limit reviews).skipped =
      (merge_reviews_with_metadata metas limit reviews).consumed ∧
    (merge_reviews_with_metadata metas limit reviews).merged.length =
      (merge_reviews_with_metadata metas limit reviews).processed := by
  have h := mergeGo_counts (load_metadata metas) limit reviews [] 0 0 0
  simp only [List.length_nil] at h
  unfold merge_reviews_with_metadata
  omega

/-- Claim C2: `load_metadata` binds each key to the last record in stream
order whose selected identifier (`parent_asin` preferred, falling back to
`asin`, both under Python truthiness) equals that key, and any record the
index returns has that key as its selected identifier — so records with
neither identifier appear under no key. -/
theorem claim_C2 (metas : List Meta) (k : String) :
    load_metadata metas k = (metas.filter fun m => metaKey m = some k).getLast? ∧
    ∀ m, load_metadata metas k = some m → metaKey m = some k := by
  refine ⟨load_metadata_lookup metas k, fun m hm => ?_⟩
  rw [load_metadata_lookup metas k] at hm
  obtain ⟨hne, heq⟩ := List.mem_getLast?_eq_getLast hm
  have hmem := heq ▸ List.getLast_mem hne
  simpa using List.of_mem_filter hmem

/-- Witness for C2 at the spec's duplicate-identifier test: two records
share identifier "A" with different titles, and the index resolves to the
second. -/
theorem claim_C2_witness :
    metaKey ⟨some "A", none, some "second", none, none, none, none, none, none⟩ =
      some "A" ∧
    load_metadata
        [⟨some "A", none, some "first", none, none, none, none, none, none⟩,
         ⟨some "A", none, some "second", none, none, none, none, none, none⟩] "A" =
      some ⟨some "A", none, some "second", none, none, none, none, none, none⟩ :=
  ⟨(claim_C2
      [⟨some "A", none, some "first", none, none, none, none, none, none⟩,
       ⟨some "A", none, some "second", none, none, none, none, none, none⟩] "A").2
      ⟨some "A", none, some "second", none, none, none, none, none, none⟩ (by decide),
   by decide⟩

/-- Claim C7: with a sample limit `L ≥ 1` and at least `L` joinable reviews
in the input, the merge returns exactly `L` records, the loop stops reading
once the accumulated count reaches `L` (the consumed prefix contains
exactly `L` joinable reviews), and for every input the returned sequence
never exceeds `L` records.  No error is raised: the function is total and
returns a result. -/
theorem claim_C7 (metas : List Meta) (L : Nat) (reviews : List Review)
    (hL : 1 ≤ L)
    (hcount : L ≤ reviews.countP (joinable (load_metadata metas))) :
    (merge_reviews_with_metadata metas (some (L : Int)) reviews).merged.length = L ∧
    (merge_reviews_with_metadata metas (some (L : Int)) reviews).consumed ≤
      reviews.length ∧
    (reviews.take
        (merge_reviews_with_metadata metas (some (L : Int)) reviews).consumed).countP
      (joinable (load_metadata metas)) = L ∧
    ∀ rws : List Review,
      (merge_reviews_with_metadata metas (some (L : Int)) rws).merged.length ≤ L := by
  have h := mergeGo_limit_hit (load_metadata metas) (L : Int) reviews []
    (by simp; omega) (by simp; omega)
  obtain ⟨g1, g2, g3⟩ := h
  simp only [List.length_nil, Nat.cast_zero, zero_add] at g1 g3
  unfold merge_reviews_with_metadata
  refine ⟨by omega, g2, by omega, fun rws => ?_⟩
  have hle := mergeGo_length_le (load_metadata metas) (L : Int) rws [] 0 0 0
    (by simp; omega)
  omega

/-- Witness for C7: limit 1 with 3 joinable reviews yields exactly 1
merged record. -/
theorem claim_C7_witness :
    (merge_reviews_with_metadata
        [⟨none, some "A", some "Widget", none, none, none, none, none, none⟩]
        (some (1 : Int))
        [⟨some "A", none, none, none, none, none, none, none⟩,
         ⟨some "A", none, none, none, none, none, none, none⟩,
         ⟨some "A", none, none, none, none, none, none, none⟩]).merged.length = 1 :=
  (claim_C7
      [⟨none, some "A", some "Widget", none, none, none, none, none, none⟩] 1
      [⟨some "A", none, none, none, none, none, none, none⟩,
       ⟨some "A", none, none, none, none, none, none, none⟩,
       ⟨some "A", none, none, none, none, none, none, none⟩]
      (by decide) (by decide)).1

/-- With a non-positive sample limit the limit check succeeds right after
the first append, so the first joinable review is still appended before
the loop breaks. -/
theorem mergeGo_limit_nonpos (metaIx : String → Option Meta) (L : Int)
    (hL : L ≤ 0) (rs : List Review) :
    ∀ (merged : List MergedRecord) (p s c : Nat),
      (∃ r ∈ rs, joinable metaIx r = true) →
      (mergeGo metaIx (some L) merged p s c rs).merged.length =
        merged.length + 1 := by
  induction rs with
  | nil => intro merged p s c hex; simp at hex
  | cons r rs ih =>
    intro merged p s c hex
    cases ha : r.asin with
    | none =>
      have hj : joinable metaIx r = false := by simp [joinable, ha]
      simp only [mergeGo, ha]
      apply ih
      obtain ⟨r', hr', hjr⟩ := hex
      rcases List.mem_cons.mp hr' with rfl | hmem
      · rw [hj] at hjr; exact absurd hjr (by simp)
      · exact ⟨r', hmem, hjr⟩
    | some a =>
      cases he : a.isEmpty with
      | true =>
        have hj : joinable metaIx r = false := by simp [joinable, ha, he]
        simp only [mergeGo, ha, he, if_true]
        apply ih
        obtain ⟨r', hr', hjr⟩ := hex
        rcases List.mem_cons.mp hr' with rfl | hmem
        · rw [hj] at hjr; exact absurd hjr (by simp)
        · exact ⟨r', hmem, hjr⟩
      | false =>
        cases hm : metaIx a with
        | none =>
          have hj : joinable metaIx r = false := by simp [joinable, ha, he, hm]
          simp only [mergeGo, ha, he, Bool.false_eq_true, if_false, hm]
          apply ih
          obtain ⟨r', hr', hjr⟩ := hex
          rcases List.mem_cons.mp hr' with rfl | hmem
          · rw [hj] at hjr; exact absurd hjr (by simp)
          · exact ⟨r', hmem, hjr⟩
        | some m =>
          have hl : limitReached (some L)
              ((merged ++ [build_merged_record r m]).length) = true := by
            simp only [limitReached, ge_iff_le, decide_eq_true_eq]
            have : (0 : Int) ≤ ((merged ++ [build_merged_record r m]).length : Int) := by
              positivity
            omega
          simp only [mergeGo, ha, he, Bool.false_eq_true, if_false, hm, hl, if_true]
          simp

/-- Test for a `wrote` sink event. -/
def isWrote : SinkEvent → Bool
  | SinkEvent.wrote _ => true
  | _ => false

/-- Number of records streamed to the sink. -/
def countWrote (evs : List SinkEvent) : Nat :=
  evs.countP isWrote

/-- When no sink write fails, the sinked loop returns exactly the plain
loop's state. -/
theorem mergeSinkGo_no_fail_fst (metaIx : String → Option Meta)
    (limit : Option Int) (rs : List Review) :
    ∀ (merged : List MergedRecord) (p s c w : Nat),
      (mergeSinkGo metaIx limit (fun _ => false) merged p s c w rs).1 =
        Except.ok (mergeGo metaIx limit merged p s c rs) := by
  induction rs with
  | nil => intro merged p s c w; rfl
  | cons r rs ih =>
    intro merged p s c w
    cases ha : r.asin with
    | none => simp only [mergeSinkGo, mergeGo, ha]; apply ih
    | some a =>
      cases he : a.isEmpty with
      | true => simp only [mergeSinkGo, mergeGo, ha, he, if_true]; apply ih
      | false =>
        cases hm : metaIx a with
        | none =>
          simp only [mergeSinkGo, mergeGo, ha, he, Bool.false_eq_true, if_false, hm]
          apply ih
        | some m =>
          cases hl : limitReached limit (merged ++ [build_merged_record r m]).length with
          | true =>
            simp only [mergeSinkGo, mergeGo, ha, he, Bool.false_eq_true, if_false,
              hm, hl, if_true, Bool.false_eq_true]
          | false =>
            simp only [mergeSinkGo, mergeGo, ha, he, Bool.false_eq_true, if_false,
              hm, hl]
            apply ih

/-- When no sink write fails, the records streamed to the sink are exactly
the records the loop appends beyond its initial accumulator. -/
theorem mergeSinkGo_no_fail_wrote (metaIx : String → Option Meta)
    (limit : Option Int) (rs : List Review) :
    ∀ (merged : List MergedRecord) (p s c w : Nat),
      countWrote (mergeSinkGo metaIx limit (fun _ => false) merged p s c w rs).2 +
          merged.length =
        (mergeGo metaIx limit merged p s c rs).merged.length := by
  induction rs with
  | nil => intro merged p s c w; simp [mergeSinkGo, mergeGo, countWrote]
  | cons r rs ih =>
    intro merged p s c w
    cases ha : r.asin with
    | none => simp only [mergeSinkGo, mergeGo, ha]; apply ih
    | some a =>
      cases he : a.isEmpty with
      | true => simp only [mergeSinkGo, mergeGo, ha, he, if_true]; apply ih
      | false =>
        cases hm : metaIx a with
        | none =>
          simp only [mergeSinkGo, mergeGo, ha, he, Bool.false_eq_true, if_false, hm]
          apply ih
        | some m =>
          have hlen : (merged ++ [build_merged_record r m]).length =
              merged.length + 1 := by simp
          cases hl : limitReached limit (merged ++ [build_merged_record r m]).length with
          | true =>
            simp only [mergeSinkGo, mergeGo, ha, he, Bool.false_eq_true, if_false,
              hm, hl, if_true]
            simp [countWrote, isWrote]
            omega
          | false =>
            simp only [mergeSinkGo, mergeGo, ha, he, Bool.false_eq_true, if_false,
              hm, hl]
            have := ih (merged ++ [build_merged_record r m]) (p + 1) s (c + 1) (w + 1)
            simp only [countWrote, List.countP_cons_of_pos isWrote _ (by rfl :
              isWrote (SinkEvent.wrote (build_merged_record r m)) = true)]
            simp only [countWrote] at this
            omega

/-- Claim C10: the sample-limit check runs only after a record is appended,
so with a configured limit `< 1` and at least one joinable review the merge
produces exactly one merged record (not zero), and — when the sink write
succeeds — streams exactly one record to the sink. -/
theorem claim_C10 (metas : List Meta) (L : Int) (reviews : List Review)
    (hL : L < 1)
    (hjoin : ∃ r ∈ reviews, joinable (load_metadata metas) r = true) :
    (merge_reviews_with_metadata metas (some L) reviews).merged.length = 1 ∧
    (merge_with_sink metas (some L) false (fun _ => false) reviews).result =
      Except.ok (merge_reviews_with_metadata metas (some L) reviews) ∧
    countWrote
        (merge_with_sink metas (some L) false (fun _ => false) reviews).events = 1 := by
  have h1 := mergeGo_limit_nonpos (load_metadata metas) L (by omega) reviews [] 0 0 0 hjoin
  simp only [List.length_nil, zero_add] at h1
  have h2 := mergeSinkGo_no_fail_fst (load_metadata metas) (some L) reviews [] 0 0 0 0
  have h3 := mergeSinkGo_no_fail_wrote (load_metadata metas) (some L) reviews [] 0 0 0 0
  simp only [List.length_nil, add_zero] at h3
  refine ⟨h1, ?_, ?_⟩
  · unfold merge_with_sink merge_reviews_with_metadata
    simp only [if_neg (by simp : ¬ (false = true))]
    exact h2
  · unfold merge_with_sink
    simp only [if_neg (by simp : ¬ (false = true))]
    simp only [countWrote, List.countP_cons, List.countP_append, List.countP_nil,
      isWrote, Bool.false_eq_true, if_false] at h3 ⊢
    omega

/-- Witness for C10: limit 0 with one joinable review yields one record. -/
theorem claim_C10_witness :
    (merge_reviews_with_metadata
        [⟨none, some "A", some "Widget", none, none, none, none, none, none⟩]
        (some (0 : Int))
        [⟨some "A", none, none, none, none, none, none, none⟩]).merged.length = 1 :=
  (claim_C10
      [⟨none, some "A", some "Widget", none, none, none, none, none, none⟩] 0
      [⟨some "A", none, none, none, none, none, none, none⟩]
      (by decide) (by decide)).1

/-- If the first sink write raises and some review is joinable, the
exception escapes the loop. -/
theorem mergeSinkGo_first_write_fails (metaIx : String → Option Meta)
    (limit : Option Int) (wf : Nat → Bool) (hwf : wf 0 = true)
    (rs : List Review) :
    ∀ (merged : List MergedRecord) (p s c : Nat),
      (∃ r ∈ rs, joinable metaIx r = true) →
      (mergeSinkGo metaIx limit wf merged p s c 0 rs).1 = Except.error () := by
  induction rs with
  | nil => intro merged p s c hex; simp at hex
  | cons r rs ih =>
    intro merged p s c hex
    cases ha : r.asin with
    | none =>
      have hj : joinable metaIx r = false := by simp [joinable, ha]
      simp only [mergeSinkGo, ha]
      apply ih
      obtain ⟨r', hr', hjr⟩ := hex
      rcases List.mem_cons.mp hr' with rfl | hmem
      · rw [hj] at hjr; exact absurd hjr (by simp)
      · exact ⟨r', hmem, hjr⟩
    | some a =>
      cases he : a.isEmpty with
      | true =>
        have hj : joinable metaIx r = false := by simp [joinable, ha, he]
        simp only [mergeSinkGo, ha, he, if_true]
        apply ih
        obtain ⟨r', hr', hjr⟩ := hex
        rcases List.mem_cons.mp hr' with rfl | hmem
        · rw [hj] at hjr; exact absurd hjr (by simp)
        · exact ⟨r', hmem, hjr⟩
      | false =>
        cases hm : metaIx a with
        | none =>
          have hj : joinable metaIx r = false := by simp [joinable, ha, he, hm]
          simp only [mergeSinkGo, ha, he, Bool.false_eq_true, if_false, hm]
          apply ih
          obtain ⟨r', hr', hjr⟩ := hex
          rcases List.mem_cons.mp hr' with rfl | hmem
          · rw [hj] at hjr; exact absurd hjr (by simp)
          · exact ⟨r', hmem, hjr⟩
        | some m =>
          simp only [mergeSinkGo, ha, he, Bool.false_eq_true, if_false, hm, hwf,
            if_true]

/-- Claim C8: when the sink opens, it is closed on every exit path — the
last sink event is always `closed`, whatever the input, the limit, and the
write failures (covering normal completion, sample-limit stop, and a write
exception); and a failing first write propagates as `Except.error` while
the trace still ends with `closed`: the failure is fatal but the sink is
released first. -/
theorem claim_C8 (metas : List Meta) (limit : Option Int)
    (writeFails : Nat → Bool) (reviews : List Review) :
    (merge_with_sink metas limit false writeFails reviews).events.getLast? =
      some SinkEvent.closed ∧
    ((∃ r ∈ reviews, joinable (load_metadata metas) r = true) →
      writeFails 0 = true →
      (merge_with_sink metas limit false writeFails reviews).result =
          Except.error () ∧
        (merge_with_sink metas limit false writeFails reviews).events.getLast? =
          some SinkEvent.closed) := by
  have hlast :
      (merge_with_sink metas limit false writeFails reviews).events.getLast? =
        some SinkEvent.closed := by
    unfold merge_with_sink
    simp only [if_neg (by simp : ¬ (false = true))]
    rw [show SinkEvent.opened ::
          (mergeSinkGo (load_metadata metas) limit writeFails [] 0 0 0 0 reviews).2 ++
          [SinkEvent.closed] =
        (SinkEvent.opened ::
          (mergeSinkGo (load_metadata metas) limit writeFails [] 0 0 0 0 reviews).2) ++
          [SinkEvent.closed] from by simp]
    exact List.getLast?_concat _
  refine ⟨hlast, fun hex hwf => ⟨?_, hlast⟩⟩
  unfold merge_with_sink
  simp only [if_neg (by simp : ¬ (false = true))]
  exact mergeSinkGo_first_write_fails (load_metadata metas) limit writeFails hwf
    reviews [] 0 0 0 hex

/-- Witness for C8: a failing first write on a joinable review makes the
run abort with an error, and the sink is still closed last. -/
theorem claim_C8_witness :
    (merge_with_sink
        [⟨none, some "A", some "Widget", none, none, none, none, none, none⟩]
        none false (fun _ => true)
        [⟨some "A", none, none, none, none, none, none, none⟩]).result =
      Except.error () ∧
    (merge_with_sink
        [⟨none, some "A", some "Widget", none, none, none, none, none, none⟩]
        none false (fun _ => true)
        [⟨some "A", none, none, none, none, none, none, none⟩]).events.getLast? =
      some SinkEvent.closed :=
  (claim_C8
      [⟨none, some "A", some "Widget", none, none, none, none, none, none⟩]
      none (fun _ => true)
      [⟨some "A", none, none, none, none, none, none, none⟩]).2
    (by decide) (by decide)

/-- `read_jsonl` yields exactly the parsed values in order and warns once
per malformed line with that line's number. -/
theorem read_jsonl_spec (source : String) (lines : List (RawLine α)) :
    ∀ n, read_jsonl source n lines =
      (validValues lines, malformedWarnings source n lines) := by
  induction lines with
  | nil => intro n; rfl
  | cons l rest ih =>
    intro n
    cases l with
    | blank => simp [read_jsonl, validValues, malformedWarnings, ih]
    | malformed e => simp [read_jsonl, validValues, malformedWarnings, ih]
    | valid a => simp [read_jsonl, validValues, malformedWarnings, ih]

/-- A fully well-formed source loads completely under the strict reader. -/
theorem load_jsonl_all_valid (vs : List α) :
    load_jsonl (vs.map RawLine.valid) = Except.ok vs := by
  induction vs with
  | nil => rfl
  | cons v vs ih => simp [load_jsonl, ih]

/-- Counterexample to C9 as stated: `DataIngestion.load_jsonl` is also a
line-delimited JSON reader of the pipeline, but on a source whose second
line is malformed it raises and aborts — no value is yielded and the later
valid line is lost — while `read_jsonl` on the same source yields both
values and warns for line 2. -/
theorem claim_C9_counterexample :
    load_jsonl
        [RawLine.valid (1 : Nat), RawLine.malformed "Expecting value",
         RawLine.valid 2] =
      Except.error "Expecting value" ∧
    read_jsonl "reviews.jsonl" 1
        [RawLine.valid (1 : Nat), RawLine.malformed "Expecting value",
         RawLine.valid 2] =
      ([1, 2], [⟨2, "reviews.jsonl", "Expecting value"⟩]) := by
  constructor
  · rfl
  · rfl

/-- Claim C9 (amended): for the merge tool's reader `read_jsonl`, a
malformed line produces a warning carrying its 1-based line number and the
source name and is skipped without aborting (all later valid lines are
still yielded), and blank lines are skipped silently — line-level parse
failures are never fatal there.  `DataIngestion.load_jsonl`, in contrast,
parses strictly: the first malformed or blank line raises and aborts the
read, and only a fully well-formed source loads. -/
theorem claim_C9 (source : String) (lines : List (RawLine α))
    (e : String) (rest : List (RawLine α)) (vs : List α) :
    (read_jsonl source 1 lines).1 = validValues lines ∧
    (read_jsonl source 1 lines).2 = malformedWarnings source 1 lines ∧
    load_jsonl (RawLine.malformed e :: rest) = Except.error e ∧
    load_jsonl (RawLine.blank :: rest) = Except.error "Expecting value" ∧
    load_jsonl (vs.map RawLine.valid) = Except.ok vs := by
  refine ⟨?_, ?_, rfl, rfl, load_jsonl_all_valid vs⟩
  · rw [read_jsonl_spec source lines 1]
  · rw [read_jsonl_spec source lines 1]

/-- `pyStrip` via Mathlib's `rdropWhile`. -/
theorem pyStrip_eq (s : PyStr) :
    pyStrip s = (s.rdropWhile fun c => c.isWhitespace).dropWhile
      fun c => c.isWhitespace := by
  simp [pyStrip, stripLeft, List.rdropWhile]

/-- Stripping is idempotent: a stripped string has no leading or trailing
whitespace left. -/
theorem pyStrip_idem (s : PyStr) : pyStrip (pyStrip s) = pyStrip s := by
  rw [pyStrip_eq, pyStrip_eq]
  set p := fun c : Char => c.isWhitespace with hp
  set u := s.rdropWhile p with hu
  set t := (s.rdropWhile p).dropWhile p with ht
  have hsuf : t <:+ u := List.dropWhile_suffix p
  have hrd : t.rdropWhile p = t := by
    rw [List.rdropWhile_eq_self_iff]
    intro hl
    have hune : u ≠ [] := by
      intro h
      rw [h] at hsuf
      exact hl (List.suffix_nil.mp hsuf)
    obtain ⟨w, hw⟩ := hsuf
    have h1 : t.getLast? = u.getLast? := by
      conv_rhs => rw [← hw]
      exact (List.getLast?_append_of_ne_nil w hl).symm
    have h2 := List.getLast?_eq_getLast_of_ne_nil hl
    have h3 := List.getLast?_eq_getLast_of_ne_nil hune
    have hlast : t.getLast hl = u.getLast hune := by
      rw [h2, h3] at h1
      exact Option.some.inj h1
    rw [hlast]
    exact List.rdropWhile_last_not p s hune
  rw [hrd, ht, List.dropWhile_idempotent]

/-- The derived `page_content` is always in stripped form. -/
theorem pageContent_strip (row : Row) :
    pyStrip (pageContent row) = pageContent row := by
  unfold pageContent
  dsimp only
  by_cases h : pyStrip (row.title.getD []) = []
  · simp [h, pyStrip_idem]
  · simp [h, pyStrip_idem]

/-- Characterization of the first transform loop: entries come from the
rows with non-empty derived content, in order; the skip counter counts the
rest. -/
theorem buildEntries_spec (rows : List Row) :
    (buildEntries rows).1 =
      (rows.filter fun r => !decide (pageContent r = [])).map entryOf ∧
    (buildEntries rows).2 = (rows.countP fun r => decide (pageContent r = [])) ∧
    (buildEntries rows).1.length + (buildEntries rows).2 = rows.length := by
  induction rows with
  | nil => simp [buildEntries]
  | cons row rest ih =>
    obtain ⟨ih1, ih2, ih3⟩ := ih
    by_cases h : pageContent row = []
    · have hb : buildEntries (row :: rest) =
          ((buildEntries rest).1, (buildEntries rest).2 + 1) := by
        simp [buildEntries, h]
      have hp : (!decide (pageContent row = [])) = false := by simp [h]
      have hq : (decide (pageContent row = [])) = true := by simp [h]
      rw [hb]
      simp only [List.filter_cons, List.countP_cons, hp, hq, Bool.not_false,
        Bool.not_true, Bool.false_eq_true, if_false, if_true, List.length_cons]
      exact ⟨ih1, by omega, by omega⟩
    · have hb : buildEntries (row :: rest) =
          (entryOf row :: (buildEntries rest).1, (buildEntries rest).2) := by
        simp [buildEntries, h]
      have hp : (!decide (pageContent row = [])) = true := by simp [h]
      have hq : (decide (pageContent row = [])) = false := by simp [h]
      rw [hb]
      simp only [List.filter_cons, List.countP_cons, hp, hq, Bool.not_false,
        Bool.not_true, Bool.false_eq_true, if_false, if_true, List.map_cons,
        List.length_cons]
      exact ⟨by rw [ih1], by omega, by omega⟩

/-- Claim C3: every document produced by `transform` has non-empty,
non-whitespace-only `page_content` (its own strip is non-empty); rows whose
derived content is empty are counted in `empty_skipped` and yield no
document — the documents are exactly the non-empty rows, in order. -/
theorem claim_C3 (limitCfg : Option Int) (rows : List Row) :
    (∀ d ∈ (transform limitCfg rows).1,
        d.page_content ≠ [] ∧ pyStrip d.page_content ≠ []) ∧
    (transform limitCfg rows).2 =
      ((effectiveRows limitCfg rows).countP fun r => decide (pageContent r = [])) ∧
    (transform limitCfg rows).1.length + (transform limitCfg rows).2 =
      (effectiveRows limitCfg rows).length ∧
    (transform limitCfg rows).1 =
      ((effectiveRows limitCfg rows).filter fun r => !decide (pageContent r = [])).map
        (fun r => docOf (entryOf r)) := by
  obtain ⟨h1, h2, h3⟩ := buildEntries_spec (effectiveRows limitCfg rows)
  have ht1 : (transform limitCfg rows).1 =
      ((buildEntries (effectiveRows limitCfg rows)).1).map docOf := rfl
  have ht2 : (transform limitCfg rows).2 =
      (buildEntries (effectiveRows limitCfg rows)).2 := rfl
  have hdocs : (transform limitCfg rows).1 =
      ((effectiveRows limitCfg rows).filter fun r => !decide (pageContent r = [])).map
        (fun r => docOf (entryOf r)) := by
    rw [ht1, h1, List.map_map]
    rfl
  refine ⟨?_, by rw [ht2, h2], ?_, hdocs⟩
  · intro d hd
    rw [hdocs] at hd
    obtain ⟨r, hr, rfl⟩ := List.mem_map.mp hd
    have hne : pageContent r ≠ [] := by
      have := List.of_mem_filter hr
      simpa using this
    have hpc : (docOf (entryOf r)).page_content = pageContent r := rfl
    rw [hpc, pageContent_strip r]
    exact ⟨hne, hne⟩
  · rw [ht1, ht2, List.length_map]
    exact h3

/-- Witness for C3 on one concrete row with text "hi": the produced
document's content is non-empty and not whitespace-only. -/
theorem claim_C3_witness :
    (docOf (entryOf ⟨none, some ('h' :: 'i' :: []), none, none, none, none,
        none, none, none, none, none, none, none, none, none⟩)).page_content ≠ [] ∧
    pyStrip (docOf (entryOf ⟨none, some ('h' :: 'i' :: []), none, none, none, none,
        none, none, none, none, none, none, none, none, none⟩)).page_content ≠ [] :=
  (claim_C3 none
      [⟨none, some ('h' :: 'i' :: []), none, none, none, none,
        none, none, none, none, none, none, none, none, none⟩]).1
    (docOf (entryOf ⟨none, some ('h' :: 'i' :: []), none, none, none, none,
        none, none, none, none, none, none, none, none, none⟩))
    (by decide)

/-- Chunking the empty list gives no batches, whatever the fuel. -/
theorem chunksGo_nil (B fuel : Nat) : chunksGo B fuel ([] : List α) = [] := by
  cases fuel <;> rfl

/-- The batches concatenate back to the input: contiguous and
order-preserving. -/
theorem chunksGo_join (B : Nat) (hB : 0 < B) :
    ∀ (fuel : Nat) (l : List α), l.length ≤ fuel → (chunksGo B fuel l).flatten = l := by
  intro fuel
  induction fuel with
  | zero =>
    intro l hl
    have : l = [] := by
      cases l with
      | nil => rfl
      | cons x xs => simp at hl
    subst this
    rfl
  | succ fuel ih =>
    intro l hl
    cases l with
    | nil => rfl
    | cons x xs =>
      show ((x :: xs).take B :: chunksGo B fuel ((x :: xs).drop B)).flatten = x :: xs
      rw [List.flatten_cons, ih ((x :: xs).drop B)
        (by simp only [List.length_drop, List.length_cons] at hl ⊢; omega)]
      exact List.take_append_drop B (x :: xs)

/-- The number of batches is `ceil(N / B)`. -/
theorem chunksGo_length (B : Nat) (hB : 0 < B) :
    ∀ (fuel : Nat) (l : List α), l.length ≤ fuel →
      (chunksGo B fuel l).length = (l.length + B - 1) / B := by
  intro fuel
  induction fuel with
  | zero =>
    intro l hl
    have : l = [] := by
      cases l with
      | nil => rfl
      | cons x xs => simp at hl
    subst this
    simp [chunksGo_nil, Nat.div_eq_of_lt (by omega : B - 1 < B)]
  | succ fuel ih =>
    intro l hl
    cases l with
    | nil => simp [chunksGo_nil, Nat.div_eq_of_lt (by omega : B - 1 < B)]
    | cons x xs =>
      show ((x :: xs).take B :: chunksGo B fuel ((x :: xs).drop B)).length =
        ((x :: xs).length + B - 1) / B
      rw [List.length_cons,
        ih ((x :: xs).drop B)
          (by simp only [List.length_drop, List.length_cons] at hl ⊢; omega)]
      set n := (x :: xs).length with hn
      have hn1 : 1 ≤ n := by simp [hn]
      rw [List.length_drop, ← hn]
      have e1 : n + B - 1 = (n - 1) + B := by omega
      rw [e1, Nat.add_div_right _ hB]
      by_cases hc : n ≤ B
      · have e2 : n - B = 0 := by omega
        rw [e2]
        have : (B - 1) / B = 0 := Nat.div_eq_of_lt (by omega)
        have h4 : (n - 1) / B = 0 := Nat.div_eq_of_lt (by omega)
        simp [this, h4]
      · have e3 : n - B + B - 1 = (n - B - 1) + B := by omega
        rw [e3, Nat.add_div_right _ hB]
        have e4 : n - 1 = (n - B - 1) + B := by omega
        rw [e4, Nat.add_div_right _ hB]

/-- Chunking yields no batch only for an empty input (or exhausted fuel,
which cannot happen at the call site). -/
theorem chunksGo_eq_nil_iff (B fuel : Nat) (l : List α) :
    chunksGo B fuel l = [] ↔ l = [] ∨ fuel = 0 := by
  cases fuel with
  | zero => cases l <;> simp [chunksGo]
  | succ f => cases l <;> simp [chunksGo]

/-- Every batch except the last has exactly `B` documents. -/
theorem chunksGo_sizes (B : Nat) (hB : 0 < B) :
    ∀ (fuel : Nat) (l : List α), l.length ≤ fuel →
      ∀ c ∈ (chunksGo B fuel l).dropLast, c.length = B := by
  intro fuel
  induction fuel with
  | zero =>
    intro l hl c hc
    have : l = [] := by
      cases l with
      | nil => rfl
      | cons x xs => simp at hl
    subst this
    simp [chunksGo_nil] at hc
  | succ fuel ih =>
    intro l hl c hc
    cases l with
    | nil => simp [chunksGo_nil] at hc
    | cons x xs =>
      have hshow : chunksGo B (fuel + 1) (x :: xs) =
          (x :: xs).take B :: chunksGo B fuel ((x :: xs).drop B) := rfl
      rw [hshow] at hc
      cases hr : chunksGo B fuel ((x :: xs).drop B) with
      | nil => rw [hr] at hc; simp at hc
      | cons r rs =>
        rw [hr] at hc
        rw [List.dropLast_cons₂] at hc
        rcases List.mem_cons.mp hc with rfl | hmem
        · have hd : (x :: xs).drop B ≠ [] := by
            intro h
            rw [h, chunksGo_nil] at hr
            exact absurd hr.symm (by simp)
          have hBn : B < (x :: xs).length := by
            by_contra hc2
            exact hd (List.drop_eq_nil_of_le (by omega))
          rw [List.length_take]
          exact min_eq_left (by omega)
        · have := ih ((x :: xs).drop B)
            (by simp only [List.length_drop, List.length_cons] at hl ⊢; omega) c
          rw [hr] at this
          exact this hmem

/-- The last batch has `N % B` documents, or `B` when `B` divides `N`. -/
theorem chunksGo_last (B : Nat) (hB : 0 < B) :
    ∀ (fuel : Nat) (l : List α), l.length ≤ fuel →
      ∀ c, (chunksGo B fuel l).getLast? = some c →
        c.length = if l.length % B = 0 then B else l.length % B := by
  intro fuel
  induction fuel with
  | zero =>
    intro l hl c hc
    have : l = [] := by
      cases l with
      | nil => rfl
      | cons x xs => simp at hl
    subst this
    simp [chunksGo_nil] at hc
  | succ fuel ih =>
    intro l hl c hc
    cases l with
    | nil => simp [chunksGo_nil] at hc
    | cons x xs =>
      have hshow : chunksGo B (fuel + 1) (x :: xs) =
          (x :: xs).take B :: chunksGo B fuel ((x :: xs).drop B) := rfl
      rw [hshow] at hc
      cases hr : chunksGo B fuel ((x :: xs).drop B) with
      | nil =>
        rw [hr] at hc
        simp only [List.getLast?_singleton, Option.some.injEq] at hc
        subst hc
        have hn1 : 1 ≤ (x :: xs).length := by simp
        have hnB : (x :: xs).length ≤ B := by
          rcases (chunksGo_eq_nil_iff B fuel ((x :: xs).drop B)).mp hr with hd | hf
          · have := List.drop_eq_nil_iff.mp hd
            omega
          · subst hf
            simp only [List.length_cons] at hl ⊢
            omega
        rw [List.length_take]
        by_cases hc2 : (x :: xs).length = B
        · rw [hc2, Nat.mod_self]
          simp
        · have hlt : (x :: xs).length < B := by omega
          have h0 : ¬ ((x :: xs).length % B = 0) := by
            rw [Nat.mod_eq_of_lt hlt]
            omega
          rw [if_neg h0, Nat.mod_eq_of_lt hlt]
          exact min_eq_right (by omega)
      | cons r rs =>
        rw [hr] at hc
        rw [List.getLast?_cons_cons] at hc
        have hd : (x :: xs).drop B ≠ [] := by
          intro h
          rw [h, chunksGo_nil] at hr
          exact absurd hr.symm (by simp)
        have hBn : B < (x :: xs).length := by
          by_contra hc2
          exact hd (List.drop_eq_nil_of_le (by omega))
        have hrec := ih ((x :: xs).drop B)
          (by simp only [List.length_drop, List.length_cons] at hl ⊢; omega) c
        rw [hr] at hrec
        have hlen := hrec hc
        have hmod : ((x :: xs).drop B).length % B = (x :: xs).length % B := by
          rw [List.length_drop]
          conv_rhs => rw [show (x :: xs).length = (x :: xs).length - B + B by omega]
          rw [Nat.add_mod_right]
        rw [hmod] at hlen
        exact hlen

/-- The retry loop makes at most `remaining + 1` further calls. -/
theorem runBatchGo_attempts_le (write : Nat → Option (List String)) :
    ∀ (remaining attempt : Nat) (backoff : ℚ) (sleeps : List ℚ),
      (runBatchGo write attempt backoff sleeps remaining).attempts ≤
        attempt + remaining + 1 := by
  intro remaining
  induction remaining with
  | zero =>
    intro attempt backoff sleeps
    cases hw : write attempt <;> simp [runBatchGo, hw]
  | succ r ih =>
    intro attempt backoff sleeps
    cases hw : write attempt with
    | some ids =>
      simp only [runBatchGo, hw]
      omega
    | none =>
      have := ih (attempt + 1) (min (backoff * 2) 30) (sleeps ++ [backoff])
      simp only [runBatchGo, hw]
      omega

/-- When every allowed attempt fails, the loop stops after exhausting the
budget with no ids. -/
theorem runBatchGo_all_fail (write : Nat → Option (List String)) :
    ∀ (remaining attempt : Nat) (backoff : ℚ) (sleeps : List ℚ),
      (∀ a, attempt ≤ a → a ≤ attempt + remaining → write a = none) →
      (runBatchGo write attempt backoff sleeps remaining).attempts =
          attempt + remaining + 1 ∧
        (runBatchGo write attempt backoff sleeps remaining).ids = none := by
  intro remaining
  induction remaining with
  | zero =>
    intro attempt backoff sleeps hf
    have hw : write attempt = none := hf attempt (le_refl _) (by omega)
    simp [runBatchGo, hw]
  | succ r ih =>
    intro attempt backoff sleeps hf
    have hw : write attempt = none := hf attempt (le_refl _) (by omega)
    simp only [runBatchGo, hw]
    have := ih (attempt + 1) (min (backoff * 2) 30) (sleeps ++ [backoff])
      (fun a h1 h2 => hf a (by omega) (by omega))
    exact ⟨by omega, this.2⟩

/-- If some allowed attempt succeeds, the loop returns ids. -/
theorem runBatchGo_succeeds (write : Nat → Option (List String)) :
    ∀ (remaining attempt : Nat) (backoff : ℚ) (sleeps : List ℚ),
      (∃ a, attempt ≤ a ∧ a ≤ attempt + remaining ∧ (write a).isSome) →
      (runBatchGo write attempt backoff sleeps remaining).ids.isSome := by
  intro remaining
  induction remaining with
  | zero =>
    intro attempt backoff sleeps hex
    obtain ⟨a, h1, h2, h3⟩ := hex
    have : a = attempt := by omega
    subst this
    obtain ⟨ids, hw⟩ := Option.isSome_iff_exists.mp h3
    simp [runBatchGo, hw]
  | succ r ih =>
    intro attempt backoff sleeps hex
    cases hw : write attempt with
    | some ids => simp [runBatchGo, hw]
    | none =>
      simp only [runBatchGo, hw]
      apply ih
      obtain ⟨a, h1, h2, h3⟩ := hex
      have hne : a ≠ attempt := by
        intro h
        subst h
        rw [hw] at h3
        simp at h3
      exact ⟨a, by omega, by omega, h3⟩

/-- `batchSucceeds` says some attempt among `0..maxRetries` returns ids. -/
theorem batchSucceeds_iff (write : Nat → Option (List String)) (maxRetries : Nat) :
    batchSucceeds write maxRetries = true ↔
      ∃ a, a ≤ maxRetries ∧ (write a).isSome := by
  unfold batchSucceeds
  rw [List.any_eq_true]
  constructor
  · rintro ⟨a, ha, hs⟩
    exact ⟨a, by have := List.mem_range.mp ha; omega, hs⟩
  · rintro ⟨a, ha, hs⟩
    exact ⟨a, List.mem_range.mpr (by omega), hs⟩

/-- When batches before `j` succeed within budget and batch `j` fails every
allowed attempt, the loop errors after attempting exactly batches `0..j`,
no batch exceeding `maxRetries + 1` calls and batch `j` using exactly that
many. -/
theorem ingestLoop_abort (write : Nat → Nat → Option (List String))
    (maxRetries : Nat) (b0 : ℚ) :
    ∀ (bs : List (List α)) (i j : Nat), j < bs.length →
      (∀ k, k < j → batchSucceeds (write (i + k)) maxRetries = true) →
      (∀ a, a ≤ maxRetries → write (i + j) a = none) →
      (ingestLoop write maxRetries b0 bs i).2 = Except.error () ∧
      (ingestLoop write maxRetries b0 bs i).1.length = j + 1 ∧
      (∀ o ∈ (ingestLoop write maxRetries b0 bs i).1,
        o.attempts ≤ maxRetries + 1) ∧
      ((ingestLoop write maxRetries b0 bs i).1.getLastD
          ⟨0, [], none⟩).attempts = maxRetries + 1 := by
  intro bs
  induction bs with
  | nil => intro i j hj; simp at hj
  | cons b bs ih =>
    intro i j hj hpre hfail
    cases j with
    | zero =>
      have hf := runBatchGo_all_fail (write i) maxRetries 0 b0 []
        (fun a h1 h2 => by simpa using hfail a (by omega))
      have hids : (runBatch (write i) maxRetries b0).ids = none := hf.2
      have hatt : (runBatch (write i) maxRetries b0).attempts = maxRetries + 1 := by
        have := hf.1
        simpa [runBatch] using this
      simp only [ingestLoop, hids]
      refine ⟨by trivial, by trivial, ?_, ?_⟩
      · intro o ho
        simp only [List.mem_singleton] at ho
        subst ho
        omega
      · simpa using hatt
    | succ j' =>
      have hsucc : batchSucceeds (write i) maxRetries = true := by
        have := hpre 0 (by omega)
        simpa using this
      obtain ⟨a, ha, hs⟩ := (batchSucceeds_iff (write i) maxRetries).mp hsucc
      have hok : (runBatch (write i) maxRetries b0).ids.isSome :=
        runBatchGo_succeeds (write i) maxRetries 0 b0 [] ⟨a, by omega, by omega, hs⟩
      obtain ⟨ids, hids⟩ := Option.isSome_iff_exists.mp hok
      have hrec := ih (i + 1) j' (by simpa using hj)
        (fun k hk => by
          have := hpre (k + 1) (by omega)
          simpa [Nat.add_assoc, Nat.add_comm 1 k] using this)
        (fun a' ha' => by
          have := hfail a' ha'
          simpa [Nat.add_assoc, Nat.add_comm 1 j'] using this)
      obtain ⟨g1, g2, g3, g4⟩ := hrec
      simp only [ingestLoop, hids]
      refine ⟨?_, ?_, ?_, ?_⟩
      · rw [g1]; rfl
      · simp [g2]
      · intro o ho
        rcases List.mem_cons.mp ho with rfl | hmem
        · have := runBatchGo_attempts_le (write i) maxRetries 0 b0 []
          simp only [runBatch] at *
          omega
        · exact g3 o hmem
      · have htne : (ingestLoop write maxRetries b0 bs (i + 1)).1 ≠ [] := by
          intro h
          rw [h] at g2
          simp at g2
        rw [List.getLastD_cons, List.getLastD_eq_getLast?]
        rw [List.getLastD_eq_getLast?] at g4
        rw [List.getLast?_eq_getLast_of_ne_nil htne] at g4 ⊢
        simpa using g4

/-- The sleeps accumulated by the retry loop always form a prefix of the
backoff chain. -/
theorem runBatchGo_sleeps_chain (write : Nat → Option (List String)) (b0 : ℚ) :
    ∀ (remaining attempt j : Nat),
      ∃ m, j ≤ m ∧
        (runBatchGo write attempt (backoffChain b0 j)
          ((List.range j).map (backoffChain b0)) remaining).sleeps =
        (List.range m).map (backoffChain b0) := by
  intro remaining
  induction remaining with
  | zero =>
    intro attempt j
    refine ⟨j, le_refl _, ?_⟩
    cases hw : write attempt <;> simp [runBatchGo, hw]
  | succ r ih =>
    intro attempt j
    cases hw : write attempt with
    | some ids =>
      refine ⟨j, le_refl _, ?_⟩
      simp [runBatchGo, hw]
    | none =>
      simp only [runBatchGo, hw]
      have e2 : (List.range j).map (backoffChain b0) ++ [backoffChain b0 j] =
          (List.range (j + 1)).map (backoffChain b0) := by
        rw [List.range_succ, List.map_append]
        rfl
      have e1 : min (backoffChain b0 j * 2) 30 = backoffChain b0 (j + 1) := rfl
      rw [e1, e2]
      obtain ⟨m, hm, heq⟩ := ih (attempt + 1) (j + 1)
      exact ⟨m, by omega, heq⟩

/-- A batch's sleep durations are an initial segment of the backoff chain
starting at the configured initial backoff. -/
theorem runBatch_sleeps_chain (write : Nat → Option (List String))
    (maxRetries : Nat) (b0 : ℚ) :
    ∃ m, (runBatch write maxRetries b0).sleeps =
      (List.range m).map (backoffChain b0) := by
  obtain ⟨m, _, heq⟩ := runBatchGo_sleeps_chain write b0 maxRetries 0 0
  refine ⟨m, ?_⟩
  simpa [runBatch, backoffChain] using heq

/-- Indexing an initial segment of the backoff chain. -/
theorem chain_getD (b0 : ℚ) (m k : Nat) (h : k < m) :
    ((List.range m).map (backoffChain b0)).getD k 0 = backoffChain b0 k := by
  have hlen : k < ((List.range m).map (backoffChain b0)).length := by simp [h]
  rw [List.getD_eq_getElem _ _ hlen]
  simp

/-- The fail-fail-succeed scenario: 3 calls, sleeps `b0` then
`min (b0 * 2) 30`. -/
theorem runBatch_fail_fail_ok (write : Nat → Option (List String))
    (maxRetries : Nat) (b0 : ℚ) (hmr : 2 ≤ maxRetries)
    (h0 : write 0 = none) (h1 : write 1 = none) (ids : List String)
    (h2 : write 2 = some ids) :
    runBatch write maxRetries b0 = ⟨3, [b0, min (b0 * 2) 30], some ids⟩ := by
  obtain ⟨r, rfl⟩ : ∃ r, maxRetries = r + 2 := ⟨maxRetries - 2, by omega⟩
  show runBatchGo write 0 b0 [] (r + 2) = _
  cases r <;> simp [runBatchGo, h0, h1, h2]

/-- A batch whose first write succeeds makes exactly one call and never
sleeps. -/
theorem runBatch_first_ok (write : Nat → Option (List String))
    (maxRetries : Nat) (b0 : ℚ) (h : (write 0).isSome) :
    runBatch write maxRetries b0 = ⟨1, [], write 0⟩ := by
  obtain ⟨ids, hw⟩ := Option.isSome_iff_exists.mp h
  cases maxRetries <;> simp [runBatch, runBatchGo, hw]

/-- When every batch's first write succeeds, the loop makes exactly one
call per batch, in order. -/
theorem ingestLoop_all_first_ok (write : Nat → Nat → Option (List String))
    (maxRetries : Nat) (b0 : ℚ) (h : ∀ i, (write i 0).isSome) :
    ∀ (bs : List (List α)) (i : Nat),
      (ingestLoop write maxRetries b0 bs i).1.length = bs.length ∧
      ∀ o ∈ (ingestLoop write maxRetries b0 bs i).1, o.attempts = 1 := by
  intro bs
  induction bs with
  | nil => intro i; simp [ingestLoop]
  | cons b bs ih =>
    intro i
    have hrb := runBatch_first_ok (write i) maxRetries b0 (h i)
    obtain ⟨ids, hw⟩ := Option.isSome_iff_exists.mp (h i)
    have hids : (runBatch (write i) maxRetries b0).ids = some ids := by
      rw [hrb]
      simpa using hw
    obtain ⟨g1, g2⟩ := ih (i + 1)
    simp only [ingestLoop, hids]
    refine ⟨by simp [g1], ?_⟩
    intro o ho
    rcases List.mem_cons.mp ho with rfl | hmem
    · rw [hrb]
    · exact g2 o hmem

/-- Claim C4: for `N` documents and batch size `B > 0`, `ingest` partitions
the sequence into `ceil(N/B)` contiguous batches whose concatenation is the
input (order preserved), every batch except the last has size `B`, the
last has size `N % B` (or `B` when `B` divides `N`), and — whenever each
batch's first write succeeds — the loop issues exactly one write call per
batch, in order. -/
theorem claim_C4 {α : Type} (docs : List α) (B : Nat) (hB : 0 < B)
    (write : Nat → Nat → Option (List String)) (maxRetries : Nat) (b0 : ℚ)
    (hok : ∀ i, (write i 0).isSome) :
    (chunks B docs).length = (docs.length + B - 1) / B ∧
    (chunks B docs).flatten = docs ∧
    (∀ c ∈ (chunks B docs).dropLast, c.length = B) ∧
    (∀ c, (chunks B docs).getLast? = some c →
      c.length = if docs.length % B = 0 then B else docs.length % B) ∧
    (ingest write docs B maxRetries b0).1.length = (chunks B docs).length ∧
    (∀ o ∈ (ingest write docs B maxRetries b0).1, o.attempts = 1) := by
  refine ⟨chunksGo_length B hB docs.length docs (le_refl _),
          chunksGo_join B hB docs.length docs (le_refl _),
          chunksGo_sizes B hB docs.length docs (le_refl _),
          chunksGo_last B hB docs.length docs (le_refl _), ?_, ?_⟩
  · exact (ingestLoop_all_first_ok write maxRetries b0 hok (chunks B docs) 0).1
  · exact (ingestLoop_all_first_ok write maxRetries b0 hok (chunks B docs) 0).2

/-- Witness for C4: 3 documents with batch size 2 give 2 batches and 2
write calls. -/
theorem claim_C4_witness :
    (ingest (fun _ _ => some []) [0, 1, 2] 2 5 1).1.length =
      (chunks 2 [0, 1, 2]).length ∧
    (chunks 2 [0, 1, 2]).length = 2 :=
  ⟨(claim_C4 [0, 1, 2] 2 (by decide) (fun _ _ => some []) 5 1
      (fun _ => rfl)).2.2.2.2.1,
   by decide⟩

/-- Claim C5: when the batch at index `j` fails every allowed attempt (the
1-indexed failure count exceeds `maxRetries`) and the batches before it
succeed within budget, `ingest` propagates the failure (`Except.error`,
losing the accumulated ids — no partial result), attempts exactly batches
`0..j` and none after, each batch's write is invoked at most
`maxRetries + 1` times, and the failing batch exactly `maxRetries + 1`
times. -/
theorem claim_C5 {α : Type} (write : Nat → Nat → Option (List String))
    (docs : List α) (B maxRetries : Nat) (b0 : ℚ) (j : Nat)
    (hj : j < (chunks B docs).length)
    (hpre : ∀ k, k < j → batchSucceeds (write k) maxRetries = true)
    (hfail : ∀ a, a ≤ maxRetries → write j a = none) :
    (ingest write docs B maxRetries b0).2 = Except.error () ∧
    (ingest write docs B maxRetries b0).1.length = j + 1 ∧
    (∀ o ∈ (ingest write docs B maxRetries b0).1,
      o.attempts ≤ maxRetries + 1) ∧
    ((ingest write docs B maxRetries b0).1.getLastD ⟨0, [], none⟩).attempts =
      maxRetries + 1 := by
  have h := ingestLoop_abort write maxRetries b0 (chunks B docs) 0 j hj
    (fun k hk => by simpa using hpre k hk)
    (fun a ha => by simpa using hfail a ha)
  exact h

/-- Witness for C5: with batch size 1 over 3 documents, batch 0 succeeding
and batch 1 always failing, the run aborts with an error. -/
theorem claim_C5_witness :
    (ingest (fun i _ => if i = 0 then some [] else none) [0, 1, 2] 1 1
        1).2 = Except.error () :=
  (claim_C5 (fun i _ => if i = 0 then some [] else none) [0, 1, 2] 1 1 1 1
      (by decide) (by decide) (fun _ _ => rfl)).1

/-- Claim C6: a write capability that fails exactly twice and then succeeds
makes exactly 3 attempts and 2 sleeps, the first sleep being the initial
backoff and the second its double capped at 30; and in general every later
sleep equals the previous one doubled and capped at 30 (hence never
exceeds 30), while the first sleep is always the configured initial
backoff. -/
theorem claim_C6 (write : Nat → Option (List String)) (maxRetries : Nat)
    (b0 : ℚ) (ids : List String) (hmr : 2 ≤ maxRetries)
    (h0 : write 0 = none) (h1 : write 1 = none) (h2 : write 2 = some ids) :
    (runBatch write maxRetries b0).attempts = 3 ∧
    (runBatch write maxRetries b0).sleeps = [b0, min (b0 * 2) 30] ∧
    (∀ (w' : Nat → Option (List String)) (mr : Nat) (q0 : ℚ) (k : Nat),
      k + 1 < (runBatch w' mr q0).sleeps.length →
      (runBatch w' mr q0).sleeps.getD (k + 1) 0 =
          min ((runBatch w' mr q0).sleeps.getD k 0 * 2) 30 ∧
        (runBatch w' mr q0).sleeps.getD (k + 1) 0 ≤ 30) ∧
    (∀ (w' : Nat → Option (List String)) (mr : Nat) (q0 : ℚ),
      0 < (runBatch w' mr q0).sleeps.length →
      (runBatch w' mr q0).sleeps.getD 0 0 = q0) := by
  have hrb := runBatch_fail_fail_ok write maxRetries b0 hmr h0 h1 ids h2
  refine ⟨by rw [hrb], by rw [hrb], ?_, ?_⟩
  · intro w' mr q0 k hk
    obtain ⟨m, hm⟩ := runBatch_sleeps_chain w' mr q0
    rw [hm] at hk ⊢
    simp only [List.length_map, List.length_range] at hk
    rw [chain_getD q0 m (k + 1) (by omega), chain_getD q0 m k (by omega)]
    exact ⟨rfl, min_le_right _ _⟩
  · intro w' mr q0 hpos
    obtain ⟨m, hm⟩ := runBatch_sleeps_chain w' mr q0
    rw [hm] at hpos ⊢
    simp only [List.length_map, List.length_range] at hpos
    rw [chain_getD q0 m 0 (by omega)]
    rfl

/-- Witness for C6: two failures then success with initial backoff 1 give
3 attempts and sleeps 1 then 2. -/
theorem claim_C6_witness :
    (runBatch (fun a => if a < 2 then none else some []) 5 1).attempts = 3 ∧
    (runBatch (fun a => if a < 2 then none else some []) 5 1).sleeps =
      [1, min (1 * 2) 30] :=
  ⟨(claim_C6 (fun a => if a < 2 then none else some []) 5 1 [] (by omega)
      rfl rfl rfl).1,
   (claim_C6 (fun a => if a < 2 then none else some []) 5 1 [] (by omega)
      rfl rfl rfl).2.1⟩
